import Mathlib

/-!
# Verification of the heat-equation notebook solver

A shallow embedding, over `ℚ`, of the 2-D heat-diffusion solver:

* the five diagonal data rows built with numpy list/`tile`/`append`
  expressions (`pytile`, `data0` … `data4`),
* the scipy `dia_array` semantics (`Amat`): the entry on diagonal
  `offset` at column `j` is `data[k][j]`, i.e. `A[i, j] = data[k][j]`
  whenever `j - i = offsets[k]`,
* the stepping loop `Z[i] = A.dot(Z[i-1]); Z[i][:n] = boundary`
  (`stepFrame`, `Zseq`) with frame 0 seeded by the flattened initial
  condition (`flattenInit`),
* the animation's fixed normalization range computed once from the
  initial array (`normPair`, `animUsedRange`),
* the fallible construction path (`buildOperator`): `g = a*th/h**2`
  raises a `ZeroDivisionError` when `h**2 = 0`, and `np.tile(row, n-2)`
  raises a `ValueError` when `n - 2 < 0` (Python evaluates `n-2` as an
  integer, negative for `n < 2`).

Machine floats of the source are modelled by exact rationals.
-/

namespace HeatEq

/-- `np.tile(l, k)` for a 1-D array: `k` copies of `l` concatenated. -/
def pytile (l : List ℚ) (k : ℕ) : List ℚ :=
  (List.replicate k l).flatten

/-- `[-2] + [-3 for i in range(n-2)] + [-2]`, the center-coefficient
pattern of the first and last grid row. -/
def cornerRow (n : ℕ) : List ℚ :=
  [-2] ++ List.replicate (n - 2) (-3) ++ [-2]

/-- `[-3] + [-4 for i in range(n-2)] + [-3]`, the center-coefficient
pattern of an inner grid row. -/
def midRow (n : ℕ) : List ℚ :=
  [-3] ++ List.replicate (n - 2) (-4) ++ [-3]

/-- `np.append(np.append(cornerRow, np.tile(midRow, n-2)), cornerRow)`,
the raw center-coefficient pattern before scaling by `g` and adding 1. -/
def centerBase (n : ℕ) : List ℚ :=
  cornerRow n ++ pytile (midRow n) (n - 2) ++ cornerRow n

/-- `[g for i in range(n**2)]`: the data row for diagonal offset `+n`. -/
def data0 (n : ℕ) (g : ℚ) : List ℚ :=
  List.replicate (n * n) g

/-- `np.tile([0] + [g for i in range(n-1)], n)`: the data row for
diagonal offset `+1`. -/
def data1 (n : ℕ) (g : ℚ) : List ℚ :=
  pytile ((0 : ℚ) :: List.replicate (n - 1) g) n

/-- `centerBase * g + 1` (elementwise): the data row for the main
diagonal (offset `0`). -/
def data2 (n : ℕ) (g : ℚ) : List ℚ :=
  (centerBase n).map fun z => z * g + 1

/-- `np.tile([g for i in range(n-1)] + [0], n)`: the data row for
diagonal offset `-1`. -/
def data3 (n : ℕ) (g : ℚ) : List ℚ :=
  pytile (List.replicate (n - 1) g ++ [0]) n

/-- `[g for i in range(n**2)]`: the data row for diagonal offset `-n`. -/
def data4 (n : ℕ) (g : ℚ) : List ℚ :=
  List.replicate (n * n) g

/-- The matrix built by
`dia_array((data, offsets), shape=(n**2, n**2))` with
`offsets = [n, 1, 0, -1, -n]`.  Per the scipy `dia` convention the data
rows are indexed by the **column**: `A[i, j] = data[k][j]` when
`j - i = offsets[k]`.  Out-of-band entries are 0. -/
def Amat (n : ℕ) (g : ℚ) (i j : ℕ) : ℚ :=
  if j = i + n then (data0 n g).getD j 0
  else if j = i + 1 then (data1 n g).getD j 0
  else if j = i then (data2 n g).getD j 0
  else if i = j + 1 then (data3 n g).getD j 0
  else if i = j + n then (data4 n g).getD j 0
  else 0

/-- `A.dot(x)`: the banded matrix-vector product, entry `i`. -/
def applyA (n : ℕ) (g : ℚ) (x : ℕ → ℚ) (i : ℕ) : ℚ :=
  ∑ j in Finset.range (n * n), Amat n g i j * x j

/-- One step of the solution loop:
`Z[i] = A.dot(Z[i-1]); Z[i][:n] = b` — the product followed by the
boundary overwrite of the first `n` flat indices (grid row 0). -/
def stepFrame (n : ℕ) (g b : ℚ) (x : ℕ → ℚ) (i : ℕ) : ℚ :=
  if i < n then b else applyA n g x i

/-- `initial.flatten()`: row-major flattening of the `n × n` initial
condition. -/
def flattenInit (n : ℕ) (init : ℕ → ℕ → ℚ) (j : ℕ) : ℚ :=
  init (j / n) (j % n)

/-- The time series: `Z[0] = initial.flatten()` (no boundary
overwrite), `Z[k+1] = stepFrame (Z[k])`. -/
def Zseq (n : ℕ) (g b : ℚ) (x0 : ℕ → ℚ) : ℕ → ℕ → ℚ
  | 0 => x0
  | k + 1 => stepFrame n g b (Zseq n g b x0 k)

/-- The `t`-row array `Z`: frames `0 … t-1` of the recurrence. -/
def timeSeries (n : ℕ) (g b : ℚ) (init : ℕ → ℕ → ℚ) (t : ℕ) :
    List (ℕ → ℚ) :=
  (List.range t).map (Zseq n g b (flattenInit n init))

/-- `Z.reshape((t, n, n))`: each frame viewed as an `n × n` array,
row-major. -/
def reshapedSeries (n : ℕ) (g b : ℚ) (init : ℕ → ℕ → ℚ) (t : ℕ) :
    List (ℕ → ℕ → ℚ) :=
  (timeSeries n g b init t).map fun z r c => z (n * r + c)

/-- Number of 4-adjacent grid neighbours of flat index `i` that lie on
the grid: left, right, up, down. -/
def numNeighbors (n i : ℕ) : ℕ :=
  (if i % n = 0 then 0 else 1) + (if i % n = n - 1 then 0 else 1) +
    (if i < n then 0 else 1) + (if i + n < n * n then 1 else 0)

/-- Flat index `i` lies in a corner of the grid. -/
def isGridCorner (n i : ℕ) : Prop :=
  (i / n = 0 ∨ i / n = n - 1) ∧ (i % n = 0 ∨ i % n = n - 1)

/-- Flat index `i` lies on the boundary (outermost rows/columns) of the
grid. -/
def onGridEdge (n i : ℕ) : Prop :=
  i / n = 0 ∨ i / n = n - 1 ∨ i % n = 0 ∨ i % n = n - 1

instance (n i : ℕ) : Decidable (isGridCorner n i) := by
  unfold isGridCorner; infer_instance

instance (n i : ℕ) : Decidable (onGridEdge n i) := by
  unfold onGridEdge; infer_instance

/-- Runtime errors the construction cells can raise, plus the
`invalidParameters` error named by the specification's error taxonomy
(used to state that taxonomy; the notebook never raises it). -/
inductive BuildErr where
  | zeroDivision : BuildErr
  | valueError : BuildErr
  | invalidParameters : BuildErr
deriving DecidableEq

/-- Python division: `ZeroDivisionError` on a zero denominator. -/
def pydiv (x y : ℚ) : Except BuildErr ℚ :=
  if y = 0 then Except.error BuildErr.zeroDivision else Except.ok (x / y)

/-- `np.tile` with a Python-integer repetition count: raises
`ValueError` (negative dimensions) when the count is negative. -/
def pytileZ (l : List ℚ) (k : ℤ) : Except BuildErr (List ℚ) :=
  if k < 0 then Except.error BuildErr.valueError
  else Except.ok (pytile l k.toNat)

/-- The construction path of the notebook: compute `g = (a*th)/h**2`
(cell 3), then build the diagonal data — the only fallible array
expression is `np.tile(midRow, n-2)` with the Python integer `n - 2` —
and finally assemble the `dia_array`. -/
def buildOperator (n : ℕ) (a th h : ℚ) : Except BuildErr (ℕ → ℕ → ℚ) :=
  (pydiv (a * th) (h ^ 2)).bind fun g =>
    (pytileZ (midRow n) ((n : ℤ) - 2)).bind fun _ =>
      Except.ok (Amat n g)

/-- The checkerboard state used as a divergence witness: 0 on grid
row 0, `(-1)^(row+col)` elsewhere. -/
def cbInit (n i : ℕ) : ℚ :=
  if i < n then 0 else if (i / n + i % n) % 2 = 0 then 1 else -1

/-- Euclidean inner product of two states over the `n²` flat indices. -/
def innerQ (n : ℕ) (x y : ℕ → ℚ) : ℚ :=
  ∑ i in Finset.range (n * n), x i * y i

/-- `np.min` for a nonempty array of values. -/
def npMin : List ℚ → ℚ
  | [] => 0
  | x :: xs => xs.foldl min x

/-- `np.max` for a nonempty array of values. -/
def npMax : List ℚ → ℚ
  | [] => 0
  | x :: xs => xs.foldl max x

/-- All `n²` values of a state, in flat order. -/
def gridVals (n : ℕ) (v : ℕ → ℚ) : List ℚ :=
  (List.range (n * n)).map v

/-- `Normalize(np.min(initial), np.max(initial))`: the fixed
normalization range, computed once from the initial array. -/
def normPair (n : ℕ) (init : ℕ → ℕ → ℚ) : ℚ × ℚ :=
  (npMin (gridVals n (flattenInit n init)),
   npMax (gridVals n (flattenInit n init)))

/-- The normalization range the `animate` callback uses when drawing
frame number `frame`: always the captured `norm` object. -/
def animUsedRange (n : ℕ) (init : ℕ → ℕ → ℚ) (_frame : ℕ) : ℚ × ℚ :=
  normPair n init

/-! ### Arithmetic helpers on grid indices -/

lemma grid_div {n c : ℕ} (r : ℕ) (hn : 0 < n) (hc : c < n) :
    (n * r + c) / n = r := by
  rw [Nat.mul_add_div hn, Nat.div_eq_of_lt hc]; omega

lemma grid_mod {n c : ℕ} (r : ℕ) (hc : c < n) : (n * r + c) % n = c := by
  rw [Nat.mul_add_mod, Nat.mod_eq_of_lt hc]

lemma grid_lt {n r c : ℕ} (hr : r < n) (hc : c < n) : n * r + c < n * n := by
  have h1 : n * (r + 1) ≤ n * n := Nat.mul_le_mul_left n hr
  have h2 : n * (r + 1) = n * r + n := Nat.mul_succ n r
  omega

lemma grid_decomp {n j : ℕ} (hn : 0 < n) (hj : j < n * n) :
    j = n * (j / n) + j % n ∧ j / n < n ∧ j % n < n :=
  ⟨(Nat.div_add_mod j n).symm, Nat.div_lt_of_lt_mul hj, Nat.mod_lt _ hn⟩

lemma top_row_iff {n i : ℕ} (hn : 0 < n) : i < n ↔ i / n = 0 := by
  constructor
  · exact Nat.div_eq_of_lt
  · intro h
    have hd := Nat.div_add_mod i n
    rw [h, Nat.mul_zero] at hd
    have := Nat.mod_lt i hn
    omega

lemma bottom_row_iff {n i : ℕ} (hn : 0 < n) (hi : i < n * n) :
    i + n < n * n ↔ i / n < n - 1 := by
  obtain ⟨hdec, hr, hc⟩ := grid_decomp hn hi
  constructor
  · intro h
    by_contra hcon
    have h1 : n ≤ i / n + 1 := by omega
    have h2 : n * n ≤ n * (i / n + 1) := Nat.mul_le_mul_left n h1
    have h3 : n * (i / n + 1) = n * (i / n) + n := Nat.mul_succ ..
    omega
  · intro h
    have h1 : i / n + 1 + 1 ≤ n := by omega
    have h2 : n * (i / n + 1 + 1) ≤ n * n := Nat.mul_le_mul_left n h1
    have h3 : n * (i / n + 1 + 1) = n * (i / n) + n + n := by
      rw [Nat.mul_succ, Nat.mul_succ]
    omega

lemma mod_succ_eq_zero_iff {n i : ℕ} (hn : 2 ≤ n) :
    (i + 1) % n = 0 ↔ i % n = n - 1 := by
  have h0 : 0 < n := by omega
  have hm : i % n < n := Nat.mod_lt _ h0
  have key : (i + 1) % n = (i % n + 1) % n := by
    conv_lhs => rw [Nat.add_mod, Nat.mod_eq_of_lt (show 1 < n by omega)]
  rw [key]
  by_cases h : i % n = n - 1
  · rw [h, show n - 1 + 1 = n by omega, Nat.mod_self]
    simp [h]
  · rw [Nat.mod_eq_of_lt (by omega)]
    omega

lemma pred_mod_iff {n i : ℕ} (hn : 2 ≤ n) (hi : 1 ≤ i) :
    (i - 1) % n = n - 1 ↔ i % n = 0 := by
  have := mod_succ_eq_zero_iff (i := i - 1) hn
  rw [Nat.sub_add_cancel hi] at this
  exact this.symm

lemma succ_lt_sq {n i : ℕ} (hn : 2 ≤ n) (hi : i < n * n)
    (hne : i % n ≠ n - 1) : i + 1 < n * n := by
  by_contra hcon
  have e1 : n * ((n - 1) + 1) = n * (n - 1) + n := Nat.mul_succ ..
  rw [show (n - 1) + 1 = n by omega] at e1
  have e2 : i = n * (n - 1) + (n - 1) := by omega
  have hm := grid_mod (n := n) (c := n - 1) (n - 1) (by omega)
  rw [← e2] at hm
  exact hne hm

/-! ### List bridge lemmas -/

lemma getD_replicate' {x : ℚ} {k j : ℕ} (h : j < k) :
    (List.replicate k x).getD j 0 = x := by
  rw [List.getD_eq_getElem _ _ (by simpa using h)]
  exact List.getElem_replicate ..

lemma pytile_length (l : List ℚ) (k : ℕ) :
    (pytile l k).length = k * l.length := by
  induction k with
  | zero => simp [pytile]
  | succ m ih =>
    unfold pytile at ih ⊢
    rw [List.replicate_succ, List.flatten_cons, List.length_append, ih,
      Nat.succ_mul]
    omega

lemma pytile_getD {l : List ℚ} (_hl : 0 < l.length) {k j : ℕ}
    (h : j < k * l.length) :
    (pytile l k).getD j 0 = l.getD (j % l.length) 0 := by
  induction k generalizing j with
  | zero => omega
  | succ m ih =>
    unfold pytile
    rw [List.replicate_succ, List.flatten_cons]
    have etail : (List.replicate m l).flatten = pytile l m := rfl
    by_cases hj : j < l.length
    · rw [List.getD_append _ _ _ _ hj, Nat.mod_eq_of_lt hj]
    · push_neg at hj
      rw [List.getD_append_right _ _ _ _ hj, etail]
      have hs : (m + 1) * l.length = m * l.length + l.length :=
        Nat.succ_mul ..
      have h2 : j - l.length < m * l.length := by omega
      rw [ih h2, Nat.mod_eq_sub_mod hj]

lemma padRow_getD (a b : ℚ) {n c : ℕ} (hn : 2 ≤ n) (hc : c < n) :
    ([a] ++ List.replicate (n - 2) b ++ [a]).getD c 0 =
      if c = 0 ∨ c = n - 1 then a else b := by
  have hlen : ([a] ++ List.replicate (n - 2) b).length = n - 1 := by
    simp; omega
  by_cases h0 : c = 0
  · subst h0
    rw [List.getD_append _ _ _ _ (by rw [hlen]; omega)]
    rw [List.getD_append _ _ _ _ (by simp)]
    simp
  · by_cases h1 : c = n - 1
    · rw [List.getD_append_right _ _ _ _ (by rw [hlen]; omega)]
      rw [hlen, h1]
      simp
    · rw [List.getD_append _ _ _ _ (by rw [hlen]; omega)]
      rw [List.getD_append_right _ _ _ _ (by simp; omega)]
      rw [show ([a] : List ℚ).length = 1 by rfl]
      rw [getD_replicate' (by omega)]
      simp [h0, h1]

lemma cornerRow_getD {n c : ℕ} (hn : 2 ≤ n) (hc : c < n) :
    (cornerRow n).getD c 0 = if c = 0 ∨ c = n - 1 then -2 else -3 :=
  padRow_getD (-2) (-3) hn hc

lemma midRow_getD {n c : ℕ} (hn : 2 ≤ n) (hc : c < n) :
    (midRow n).getD c 0 = if c = 0 ∨ c = n - 1 then -3 else -4 :=
  padRow_getD (-3) (-4) hn hc

lemma cornerRow_length {n : ℕ} (hn : 2 ≤ n) : (cornerRow n).length = n := by
  simp [cornerRow]; omega

lemma midRow_length {n : ℕ} (hn : 2 ≤ n) : (midRow n).length = n := by
  simp [midRow]; omega

lemma sq_split {n : ℕ} (hn : 2 ≤ n) :
    n * n = n + (n - 2) * n + n := by
  have e1 : ((n - 2) + 2) * n = (n - 2) * n + 2 * n := Nat.add_mul ..
  rw [show (n - 2) + 2 = n by omega] at e1
  omega

lemma mul_pred_add {n : ℕ} (hn : 1 ≤ n) : n * (n - 1) + n = n * n := by
  have h : n * ((n - 1) + 1) = n * (n - 1) + n := Nat.mul_succ ..
  rw [show n - 1 + 1 = n by omega] at h
  omega

lemma centerBase_length {n : ℕ} (hn : 2 ≤ n) :
    (centerBase n).length = n * n := by
  unfold centerBase
  rw [List.length_append, List.length_append, cornerRow_length hn,
    pytile_length, midRow_length hn]
  have := sq_split hn
  omega

/-- The assembled center pattern, read at flat index `j`, classifies the
cell by its grid row `j / n` and column `j % n`. -/
lemma centerBase_getD {n j : ℕ} (hn : 2 ≤ n) (hj : j < n * n) :
    (centerBase n).getD j 0 =
      if j / n = 0 ∨ j / n = n - 1 then
        (if j % n = 0 ∨ j % n = n - 1 then -2 else -3)
      else
        (if j % n = 0 ∨ j % n = n - 1 then -3 else -4) := by
  have h0 : 0 < n := by omega
  obtain ⟨hdec, hr, hc⟩ := grid_decomp h0 hj
  unfold centerBase
  by_cases hrow0 : j / n = 0
  · have hjn : j < n := (top_row_iff h0).mpr hrow0
    rw [List.getD_append _ _ _ _ (by
      rw [List.length_append, cornerRow_length hn, pytile_length,
        midRow_length hn]; omega)]
    rw [List.getD_append _ _ _ _ (by rw [cornerRow_length hn]; omega)]
    rw [cornerRow_getD hn hjn, Nat.mod_eq_of_lt hjn]
    simp [hrow0]
  · by_cases hrowl : j / n = n - 1
    · have hge : n + (n - 2) * n ≤ j := by
        have e1 : n * (n - 1) ≤ n * (j / n) := Nat.mul_le_mul_left n (by omega)
        have e2 : n * (n - 1) + n = n * n := mul_pred_add (by omega)
        have e3 := sq_split hn
        omega
      rw [List.getD_append_right _ _ _ _ (by
        rw [List.length_append, cornerRow_length hn, pytile_length,
          midRow_length hn]; exact hge)]
      rw [List.length_append, cornerRow_length hn, pytile_length,
        midRow_length hn]
      have hcix : j - (n + (n - 2) * n) = j % n := by
        have e2 : n * (n - 1) + n = n * n := mul_pred_add (by omega)
        have e3 := sq_split hn
        rw [hrowl] at hdec
        omega
      rw [hcix, cornerRow_getD hn hc]
      simp [hrowl, show ¬ (n - 1 = 0) by omega]
    · -- middle rows
      have hge : n ≤ j := by
        by_contra hcon
        exact hrow0 ((top_row_iff h0).mp (by omega))
      have hlt : j < n + (n - 2) * n := by
        have e1 : n * (j / n + 1) ≤ n * (n - 1) := Nat.mul_le_mul_left n (by omega)
        have e2 : n * (j / n + 1) = n * (j / n) + n := Nat.mul_succ ..
        have e3 : n * (n - 1) + n = n * n := mul_pred_add (by omega)
        have e4 := sq_split hn
        omega
      rw [List.getD_append _ _ _ _ (by
        rw [List.length_append, cornerRow_length hn, pytile_length,
          midRow_length hn]; exact hlt)]
      rw [List.getD_append_right _ _ _ _ (by rw [cornerRow_length hn]; exact hge)]
      rw [cornerRow_length hn]
      rw [pytile_getD (by rw [midRow_length hn]; omega)
        (by rw [midRow_length hn]; omega)]
      rw [midRow_length hn]
      have hmod : (j - n) % n = j % n := (Nat.mod_eq_sub_mod hge).symm
      rw [hmod, midRow_getD hn hc]
      simp [hrow0, hrowl]

lemma data0_getD {n j : ℕ} (g : ℚ) (hj : j < n * n) :
    (data0 n g).getD j 0 = g := getD_replicate' hj

lemma data4_getD {n j : ℕ} (g : ℚ) (hj : j < n * n) :
    (data4 n g).getD j 0 = g := getD_replicate' hj

lemma data1_getD {n j : ℕ} (g : ℚ) (hn : 2 ≤ n) (hj : j < n * n) :
    (data1 n g).getD j 0 = if j % n = 0 then 0 else g := by
  have h0 : 0 < n := by omega
  have hl : ((0 : ℚ) :: List.replicate (n - 1) g).length = n := by
    simp; omega
  unfold data1
  rw [pytile_getD (by rw [hl]; omega) (by rw [hl]; omega), hl]
  have hm : j % n < n := Nat.mod_lt _ h0
  by_cases hz : j % n = 0
  · rw [hz]; simp
  · obtain ⟨m, hmv⟩ : ∃ m, j % n = m + 1 := ⟨j % n - 1, by omega⟩
    rw [hmv, List.getD_cons_succ, getD_replicate' (by omega)]
    simp [hz]

lemma data3_getD {n j : ℕ} (g : ℚ) (hn : 2 ≤ n) (hj : j < n * n) :
    (data3 n g).getD j 0 = if j % n = n - 1 then 0 else g := by
  have h0 : 0 < n := by omega
  have hl : (List.replicate (n - 1) g ++ [(0 : ℚ)]).length = n := by
    simp; omega
  unfold data3
  rw [pytile_getD (by rw [hl]; omega) (by rw [hl]; omega), hl]
  have hm : j % n < n := Nat.mod_lt _ h0
  by_cases hz : j % n = n - 1
  · rw [hz]
    rw [List.getD_append_right _ _ _ _ (by simp)]
    simp
  · rw [List.getD_append _ _ _ _ (by simp; omega), getD_replicate' (by omega)]
    simp [hz]

lemma data2_getD {n j : ℕ} (g : ℚ) (hn : 2 ≤ n) (hj : j < n * n) :
    (data2 n g).getD j 0 = (centerBase n).getD j 0 * g + 1 := by
  have h1 : j < (centerBase n).length := by rw [centerBase_length hn]; exact hj
  have h2 : j < (data2 n g).length := by
    unfold data2; rw [List.length_map]; exact h1
  rw [List.getD_eq_getElem _ _ h2, List.getD_eq_getElem _ _ h1]
  unfold data2
  simp

/-- The center pattern value at `j` is minus the number of grid
neighbours of cell `j`. -/
lemma centerBase_eq_neighbors {n j : ℕ} (hn : 2 ≤ n) (hj : j < n * n) :
    (centerBase n).getD j 0 = -(numNeighbors n j : ℚ) := by
  have h0 : 0 < n := by omega
  obtain ⟨hdec, hr, hc⟩ := grid_decomp h0 hj
  have e1 : (j < n) ↔ (j / n = 0) := top_row_iff h0
  have e2 : (j + n < n * n) ↔ ¬ (j / n = n - 1) := by
    rw [bottom_row_iff h0 hj]; omega
  rw [centerBase_getD hn hj]
  unfold numNeighbors
  rw [if_congr e1 rfl rfl, if_congr e2 rfl rfl]
  by_cases hc0 : j % n = 0 <;> by_cases hc1 : j % n = n - 1 <;>
    by_cases hr0 : j / n = 0 <;> by_cases hr1 : j / n = n - 1 <;>
    first
    | (exfalso; omega)
    | (simp [hc0, hc1, hr0, hr1, show ¬((0 : ℕ) = n - 1) from by omega,
        show ¬(n - 1 = (0 : ℕ)) from by omega] <;> norm_num)

/-! ### Pointwise decomposition of the operator and the product formula -/

/-- The banded matrix as the sum of its five diagonals, with every data
value in closed form. -/
lemma Amat_decomp {n i j : ℕ} (g : ℚ) (hn : 2 ≤ n) (hi : i < n * n)
    (hj : j < n * n) :
    Amat n g i j =
      (if j = i + n then g else 0) +
      (if j = i + 1 then (if i % n = n - 1 then 0 else g) else 0) +
      (if j = i then 1 - g * (numNeighbors n i : ℚ) else 0) +
      (if i = j + 1 then (if i % n = 0 then 0 else g) else 0) +
      (if i = j + n then g else 0) := by
  unfold Amat
  by_cases h1 : j = i + n
  · subst h1
    rw [if_pos rfl, data0_getD g hj]
    simp [show ¬(i + n = i + 1) from by omega, show ¬(i + n = i) from by omega,
      show ¬(i = i + n + 1) from by omega, show ¬(i = i + n + n) from by omega]
  · by_cases h2 : j = i + 1
    · subst h2
      rw [if_neg h1, if_pos rfl, data1_getD g hn hj]
      simp [h1, show ¬(i + 1 = i) from by omega,
        show ¬(i = i + 1 + 1) from by omega,
        show ¬(i = i + 1 + n) from by omega]
      exact if_congr (mod_succ_eq_zero_iff hn) rfl rfl
    · by_cases h3 : j = i
      · subst h3
        rw [if_neg h1, if_neg h2, if_pos rfl, data2_getD g hn hj,
          centerBase_eq_neighbors hn hj]
        simp [h1, h2, show ¬(j = j + 1) from by omega,
          show ¬(j = j + n) from by omega]
        ring
      · by_cases h4 : i = j + 1
        · subst h4
          rw [if_neg h1, if_neg h2, if_neg h3, if_pos rfl, data3_getD g hn hj]
          simp [h1, h2, h3, show ¬(j + 1 = j + 1 + n) from by omega,
            show ¬(j + 1 = j + n) from by omega, show j + 1 ≠ j from by omega]
          have hiff : (j % n = n - 1) ↔ ((j + 1) % n = 0) :=
            (mod_succ_eq_zero_iff hn).symm
          exact if_congr hiff rfl rfl
        · by_cases h5 : i = j + n
          · subst h5
            rw [if_neg h1, if_neg h2, if_neg h3, if_neg h4, if_pos rfl,
              data4_getD g hj]
            simp [h1, h2, h3, h4, show ¬(j = j + n + n) from by omega,
              show ¬(j = j + n + 1) from by omega, show j + n ≠ j from by omega]
          · rw [if_neg h1, if_neg h2, if_neg h3, if_neg h4, if_neg h5]
            simp [h1, h2, h3, h4, h5]

lemma sum_fwd_term (m d i : ℕ) (c : ℚ) (x : ℕ → ℚ) :
    ∑ j in Finset.range m, (if j = i + d then c else 0) * x j =
      if i + d < m then c * x (i + d) else 0 := by
  simp only [ite_mul, zero_mul]
  rw [Finset.sum_ite_eq' (Finset.range m) (i + d) fun j => c * x j]
  by_cases h : i + d < m <;> simp [Finset.mem_range, h]

lemma sum_center_term {m i : ℕ} (c : ℚ) (x : ℕ → ℚ) (hi : i < m) :
    ∑ j in Finset.range m, (if j = i then c else 0) * x j = c * x i := by
  simp only [ite_mul, zero_mul]
  rw [Finset.sum_ite_eq' (Finset.range m) i fun j => c * x j]
  simp [Finset.mem_range, hi]

lemma sum_bwd_term (m d i : ℕ) (c : ℚ) (x : ℕ → ℚ) (hd : 0 < d)
    (hi : i < m) :
    ∑ j in Finset.range m, (if i = j + d then c else 0) * x j =
      if d ≤ i then c * x (i - d) else 0 := by
  by_cases h1 : d ≤ i
  · rw [if_pos h1]
    rw [Finset.sum_eq_single_of_mem (i - d)
      (Finset.mem_range.mpr (by omega))]
    · rw [if_pos (by omega)]
    · intro b _ hb
      rw [if_neg (by omega), zero_mul]
  · rw [if_neg h1]
    apply Finset.sum_eq_zero
    intro b _
    rw [if_neg (by omega), zero_mul]

/-- The banded product in stencil form: the new value at cell `i` is
`(1 - γ·numNeighbors)·x i` plus `γ` times the sum of the present
neighbour values. -/
lemma applyA_eq {n : ℕ} (g : ℚ) (x : ℕ → ℚ) (hn : 2 ≤ n) {i : ℕ}
    (hi : i < n * n) :
    applyA n g x i =
      (1 - g * (numNeighbors n i : ℚ)) * x i +
      g * ((if i % n = n - 1 then 0 else x (i + 1)) +
           (if i % n = 0 then 0 else x (i - 1)) +
           (if i + n < n * n then x (i + n) else 0) +
           (if i < n then 0 else x (i - n))) := by
  unfold applyA
  rw [Finset.sum_congr rfl fun j hj => by
    rw [Amat_decomp g hn hi (Finset.mem_range.mp hj)]]
  simp only [add_mul]
  rw [Finset.sum_add_distrib, Finset.sum_add_distrib,
    Finset.sum_add_distrib, Finset.sum_add_distrib]
  rw [sum_fwd_term (n * n) n i g x,
    sum_fwd_term (n * n) 1 i (if i % n = n - 1 then 0 else g) x,
    sum_center_term (1 - g * (numNeighbors n i : ℚ)) x hi,
    sum_bwd_term (n * n) 1 i (if i % n = 0 then 0 else g) x (by omega) hi,
    sum_bwd_term (n * n) n i g x (by omega) hi]
  have e2 : (if i + 1 < n * n then (if i % n = n - 1 then 0 else g) * x (i + 1)
      else 0) = (if i % n = n - 1 then 0 else g * x (i + 1)) := by
    by_cases hC : i % n = n - 1
    · simp [hC]
    · have hB : i + 1 < n * n := succ_lt_sq hn hi hC
      simp [hC, hB]
  have e4 : (if 1 ≤ i then (if i % n = 0 then 0 else g) * x (i - 1) else 0) =
      (if i % n = 0 then 0 else g * x (i - 1)) := by
    by_cases hE : i % n = 0
    · simp [hE]
    · have hD : 1 ≤ i := by
        rcases Nat.eq_zero_or_pos i with h | h
        · exact absurd (by simp [h]) hE
        · exact h
      simp [hE, hD]
  have e5 : (if n ≤ i then g * x (i - n) else 0) =
      (if i < n then 0 else g * x (i - n)) := by
    by_cases hF : n ≤ i
    · rw [if_pos hF, if_neg (by omega)]
    · rw [if_neg hF, if_pos (by omega)]
  rw [e2, e4, e5]
  split_ifs <;> ring

/-! ### Structural consequences: symmetry, row sums, contraction bound -/

lemma Amat_symm {n i j : ℕ} (g : ℚ) (hn : 2 ≤ n) (hi : i < n * n)
    (hj : j < n * n) : Amat n g i j = Amat n g j i := by
  rw [Amat_decomp g hn hi hj, Amat_decomp g hn hj hi]
  by_cases h1 : j = i + n
  · subst h1
    simp [show ¬(i + n = i + 1) from by omega, show ¬(i + n = i) from by omega,
      show ¬(i = i + n + 1) from by omega, show ¬(i = i + n + n) from by omega,
      show ¬(i = i + n) from by omega]
  · by_cases h2 : j = i + 1
    · subst h2
      simp [h1, show ¬(i + 1 = i) from by omega,
        show ¬(i = i + 1 + 1) from by omega,
        show ¬(i = i + 1 + n) from by omega,
        show ¬(i = i + 1) from by omega,
        show ¬(i + 1 = i + 1 + n) from by omega]
      exact if_congr (mod_succ_eq_zero_iff hn).symm rfl rfl
    · by_cases h3 : j = i
      · subst h3
        simp
      · by_cases h4 : i = j + 1
        · subst h4
          simp [h1, h2, h3, show ¬(j + 1 = j + 1 + n) from by omega,
            show ¬(j + 1 = j + n) from by omega,
            show j + 1 ≠ j from by omega, show ¬(j = j + 1) from by omega,
            show ¬(j = j + 1 + n) from by omega,
            show ¬(j = j + 1 + 1) from by omega]
          exact if_congr (mod_succ_eq_zero_iff hn) rfl rfl
        · by_cases h5 : i = j + n
          · subst h5
            simp [h1, h2, h3, h4, show ¬(j = j + n + n) from by omega,
              show ¬(j = j + n + 1) from by omega,
              show j + n ≠ j from by omega, show ¬(j = j + n) from by omega,
              show ¬(j + n = j + n + 1) from by omega,
              show ¬(j + n = j + n + n) from by omega]
          · simp [h1, h2, h3, h4, h5,
              show ¬(i = j) from fun h => h3 h.symm]

/-- Applying the operator to a constant state returns the same
constant: the boundary-corrected center coefficient exactly cancels the
present neighbours. -/
lemma applyA_const {n : ℕ} (g c : ℚ) (hn : 2 ≤ n) {i : ℕ}
    (hi : i < n * n) : applyA n g (fun _ => c) i = c := by
  rw [applyA_eq g _ hn hi]
  unfold numNeighbors
  by_cases h1 : i % n = 0 <;> by_cases h2 : i % n = n - 1 <;>
    by_cases h3 : i < n <;> by_cases h4 : i + n < n * n <;>
    first
    | (exfalso; omega)
    | (simp [h1, h2, h3, h4, show ¬((0 : ℕ) = n - 1) from by omega,
        show ¬(n - 1 = (0 : ℕ)) from by omega] <;> push_cast <;> ring)

/-- Each row of the built operator sums to exactly 1. -/
lemma Amat_row_sum {n : ℕ} (g : ℚ) (hn : 2 ≤ n) {i : ℕ}
    (hi : i < n * n) : ∑ j in Finset.range (n * n), Amat n g i j = 1 := by
  have h := applyA_const g 1 hn hi
  unfold applyA at h
  simpa using h

lemma numNeighbors_le_four (n i : ℕ) : numNeighbors n i ≤ 4 := by
  unfold numNeighbors
  split_ifs <;> omega

/-- For `0 ≤ γ ≤ 1/4` the stencil is a convex combination, so the max
norm of a state does not grow under the operator. -/
lemma applyA_bound {n : ℕ} (g : ℚ) (x : ℕ → ℚ) (M : ℚ) (hn : 2 ≤ n)
    (hg0 : 0 ≤ g) (hg4 : g ≤ 1 / 4) (hx : ∀ j, j < n * n → |x j| ≤ M)
    {i : ℕ} (hi : i < n * n) : |applyA n g x i| ≤ M := by
  rw [applyA_eq g x hn hi]
  set q := (numNeighbors n i : ℚ) with hq
  set S := (if i % n = n - 1 then 0 else x (i + 1)) +
    (if i % n = 0 then 0 else x (i - 1)) +
    (if i + n < n * n then x (i + n) else 0) +
    (if i < n then 0 else x (i - n)) with hS
  have hk4 : q ≤ 4 := by
    rw [hq]; exact_mod_cast numNeighbors_le_four n i
  have hk0 : (0 : ℚ) ≤ q := by rw [hq]; positivity
  have hco : 0 ≤ 1 - g * q := by nlinarith
  have b1 : |(if i % n = n - 1 then 0 else x (i + 1))| ≤
      (if i % n = n - 1 then 0 else M) := by
    by_cases h : i % n = n - 1 <;> simp [h]
    exact hx _ (succ_lt_sq hn hi h)
  have b2 : |(if i % n = 0 then 0 else x (i - 1))| ≤
      (if i % n = 0 then 0 else M) := by
    by_cases h : i % n = 0 <;> simp [h]
    exact hx _ (by omega)
  have b3 : |(if i + n < n * n then x (i + n) else 0)| ≤
      (if i + n < n * n then M else 0) := by
    by_cases h : i + n < n * n <;> simp [h]
    exact hx _ h
  have b4 : |(if i < n then 0 else x (i - n))| ≤
      (if i < n then 0 else M) := by
    by_cases h : i < n <;> simp [h]
    exact hx _ (by omega)
  have hsum : (if i % n = n - 1 then 0 else M) + (if i % n = 0 then 0 else M) +
      (if i + n < n * n then M else 0) + (if i < n then 0 else M) = q * M := by
    rw [hq]
    unfold numNeighbors
    push_cast
    split_ifs <;> ring
  have habs : |S| ≤ q * M := by
    rw [← hsum, hS]
    have t1 := abs_add ((if i % n = n - 1 then 0 else x (i + 1)) +
      (if i % n = 0 then 0 else x (i - 1)) +
      (if i + n < n * n then x (i + n) else 0))
      (if i < n then 0 else x (i - n))
    have t2 := abs_add ((if i % n = n - 1 then 0 else x (i + 1)) +
      (if i % n = 0 then 0 else x (i - 1)))
      (if i + n < n * n then x (i + n) else 0)
    have t3 := abs_add (if i % n = n - 1 then 0 else x (i + 1))
      (if i % n = 0 then 0 else x (i - 1))
    linarith
  calc |(1 - g * q) * x i + g * S| ≤ |(1 - g * q) * x i| + |g * S| :=
      abs_add ..
    _ = (1 - g * q) * |x i| + g * |S| := by
        rw [abs_mul, abs_mul, abs_of_nonneg hco, abs_of_nonneg hg0]
    _ ≤ (1 - g * q) * M + g * (q * M) := by
        have t1 := mul_le_mul_of_nonneg_left (hx i hi) hco
        have t2 := mul_le_mul_of_nonneg_left habs hg0
        linarith
    _ ≤ M := by nlinarith

lemma Zseq_boundary {n : ℕ} (g b : ℚ) (x0 : ℕ → ℚ) {k : ℕ} (hk : 1 ≤ k)
    {j : ℕ} (hj : j < n) : Zseq n g b x0 k j = b := by
  obtain ⟨m, rfl⟩ : ∃ m, k = m + 1 := ⟨k - 1, by omega⟩
  show stepFrame n g b (Zseq n g b x0 m) j = b
  unfold stepFrame
  rw [if_pos hj]

/-- Max-norm stability of the whole time series for `0 ≤ γ ≤ 1/4`. -/
lemma Zseq_bound {n : ℕ} (g b : ℚ) (x0 : ℕ → ℚ) (M : ℚ) (hn : 2 ≤ n)
    (hg0 : 0 ≤ g) (hg4 : g ≤ 1 / 4) (hx0 : ∀ j, j < n * n → |x0 j| ≤ M)
    (hbM : |b| ≤ M) : ∀ k, ∀ j, j < n * n → |Zseq n g b x0 k j| ≤ M := by
  intro k
  induction k with
  | zero => exact hx0
  | succ m ih =>
    intro j hj
    show |stepFrame n g b (Zseq n g b x0 m) j| ≤ M
    unfold stepFrame
    by_cases h : j < n
    · rw [if_pos h]; exact hbM
    · rw [if_neg h]; exact applyA_bound g _ M hn hg0 hg4 ih hj

/-! ### Construction-path lemmas -/

lemma buildOperator_h_zero (n : ℕ) (a th : ℚ) :
    buildOperator n a th 0 = Except.error BuildErr.zeroDivision := by
  norm_num [buildOperator, pydiv, Except.bind]

lemma buildOperator_small (n : ℕ) (a th h : ℚ) (hn : n < 2) (hh : h ≠ 0) :
    buildOperator n a th h = Except.error BuildErr.valueError := by
  have hz : ((n : ℤ) - 2) < 0 := by omega
  simp [buildOperator, pydiv, pytileZ, pow_ne_zero 2 hh, hz, Except.bind]

lemma buildOperator_ok (n : ℕ) (a th h : ℚ) (hn : 2 ≤ n) (hh : h ≠ 0) :
    buildOperator n a th h = Except.ok (Amat n (a * th / h ^ 2)) := by
  have hz : ¬(((n : ℤ) - 2) < 0) := by omega
  simp [buildOperator, pydiv, pytileZ, pow_ne_zero 2 hh, hz, Except.bind]

lemma numNeighbors_eq_rowcol {n i : ℕ} (hn : 2 ≤ n) (hi : i < n * n) :
    numNeighbors n i =
      (if i % n = 0 then 0 else 1) + (if i % n = n - 1 then 0 else 1) +
      (if i / n = 0 then 0 else 1) + (if i / n = n - 1 then 0 else 1) := by
  unfold numNeighbors
  have e1 : (i < n) ↔ (i / n = 0) := top_row_iff (by omega)
  have e2 : (i + n < n * n) ↔ ¬(i / n = n - 1) := by
    have hlt : i / n < n := Nat.div_lt_of_lt_mul hi
    rw [bottom_row_iff (by omega) hi]
    omega
  rw [if_congr e1 rfl rfl, if_congr e2 rfl rfl]
  by_cases h : i / n = n - 1 <;> simp [h]

/-! ### Claim theorems -/

/-- C1: for every step `i` with `1 ≤ i < t`, frame `i` equals the
operator applied to frame `i-1` with the first `n` flat indices (grid
row 0) then overwritten by the configured boundary constant, and frame
0 equals the flattened initial condition with no boundary overwrite. -/
theorem heat_frame_recurrence (n : ℕ) (g b : ℚ) (init : ℕ → ℕ → ℚ)
    (t i : ℕ) (hi1 : 1 ≤ i) (_hit : i < t) :
    (∀ j, j < n → Zseq n g b (flattenInit n init) i j = b) ∧
    (∀ j, n ≤ j → Zseq n g b (flattenInit n init) i j =
      applyA n g (Zseq n g b (flattenInit n init) (i - 1)) j) ∧
    Zseq n g b (flattenInit n init) 0 = flattenInit n init := by
  refine ⟨fun j hj => Zseq_boundary g b _ hi1 hj, fun j hj => ?_, rfl⟩
  obtain ⟨m, rfl⟩ : ∃ m, i = m + 1 := ⟨i - 1, by omega⟩
  show stepFrame n g b _ j = _
  unfold stepFrame
  rw [if_neg (by omega)]
  simp

/-- C1 witness at `n = 2`, `γ = 1`, `b = 5`, constant initial grid,
`t = 3`, step `i = 1`. -/
theorem heat_frame_recurrence_witness :
    (∀ j, j < 2 → Zseq 2 1 5 (flattenInit 2 fun _ _ => 3) 1 j = 5) ∧
    (∀ j, 2 ≤ j → Zseq 2 1 5 (flattenInit 2 fun _ _ => 3) 1 j =
      applyA 2 1 (Zseq 2 1 5 (flattenInit 2 fun _ _ => 3) 0) j) ∧
    Zseq 2 1 5 (flattenInit 2 fun _ _ => 3) 0 =
      flattenInit 2 fun _ _ => 3 := by
  have h := heat_frame_recurrence 2 1 5 (fun _ _ => 3) 3 1 (by norm_num)
    (by norm_num)
  exact ⟨h.1, fun j hj => by rw [h.2.1 j hj], h.2.2⟩

/-- C2: the main-diagonal entry at every flat index `i` is
`1 + γ·c(i)` where `c(i)` is minus the number of present grid
neighbours, and that count is 4 exactly for interior cells, 3 exactly
for edge-but-not-corner cells, 2 exactly for corner cells. -/
theorem heat_diagonal_coefficient (n : ℕ) (g : ℚ) (i : ℕ) (hn : 2 ≤ n)
    (hi : i < n * n) :
    Amat n g i i = 1 + g * (-(numNeighbors n i : ℚ)) ∧
    (numNeighbors n i = 4 ↔ ¬ onGridEdge n i) ∧
    (numNeighbors n i = 3 ↔ (onGridEdge n i ∧ ¬ isGridCorner n i)) ∧
    (numNeighbors n i = 2 ↔ isGridCorner n i) := by
  have hd : Amat n g i i = 1 - g * (numNeighbors n i : ℚ) := by
    unfold Amat
    rw [if_neg (by omega), if_neg (by omega), if_pos rfl, data2_getD g hn hi,
      centerBase_eq_neighbors hn hi]
    ring
  refine ⟨by rw [hd]; ring, ?_, ?_, ?_⟩ <;>
    rw [numNeighbors_eq_rowcol hn hi] <;>
    by_cases hc0 : i % n = 0 <;> by_cases hc1 : i % n = n - 1 <;>
      by_cases hr0 : i / n = 0 <;> by_cases hr1 : i / n = n - 1 <;>
      first
      | (exfalso; omega)
      | (simp [onGridEdge, isGridCorner, hc0, hc1, hr0, hr1,
          show ¬((0 : ℕ) = n - 1) from by omega,
          show ¬(n - 1 = (0 : ℕ)) from by omega] <;> omega)

/-- C2 witness at `n = 2`, `γ = 1`, `i = 0` (a corner). -/
theorem heat_diagonal_coefficient_witness :
    Amat 2 1 0 0 = 1 + 1 * (-(numNeighbors 2 0 : ℚ)) ∧
    (numNeighbors 2 0 = 4 ↔ ¬ onGridEdge 2 0) ∧
    (numNeighbors 2 0 = 3 ↔ (onGridEdge 2 0 ∧ ¬ isGridCorner 2 0)) ∧
    (numNeighbors 2 0 = 2 ↔ isGridCorner 2 0) :=
  heat_diagonal_coefficient 2 1 0 (by norm_num) (by norm_num)

/-- C3: the horizontal neighbour entries `A[i,i+1]` and `A[i,i-1]` are
0 exactly at grid column `n-1` resp. column 0 (no wrap across row
boundaries) and `γ` otherwise; the vertical entries `A[i,i±n]` equal
`γ` whenever in range. -/
theorem heat_offdiagonal_coefficient (n : ℕ) (g : ℚ) (i j : ℕ)
    (hn : 2 ≤ n) (hi : i < n * n) (hj : j < n * n) :
    (j = i + 1 → Amat n g i j = if i % n = n - 1 then 0 else g) ∧
    (i = j + 1 → Amat n g i j = if i % n = 0 then 0 else g) ∧
    (j = i + n → Amat n g i j = g) ∧
    (i = j + n → Amat n g i j = g) := by
  rw [Amat_decomp g hn hi hj]
  refine ⟨fun hrel => ?_, fun hrel => ?_, fun hrel => ?_, fun hrel => ?_⟩
  · subst hrel
    simp [show ¬(i + 1 = i + n) from by omega,
      show ¬(i + 1 = i) from by omega, show ¬(i = i + 1 + 1) from by omega,
      show ¬(i = i + 1 + n) from by omega]
  · subst hrel
    simp [show ¬(j + 1 = j + n) from by omega,
      show ¬(j + 1 = j + 1 + 1) from by omega,
      show ¬(j + 1 = j + 1 + n) from by omega,
      show ¬(j + 1 = j) from by omega,
      show ¬(j = j + 1 + n) from by omega,
      show ¬(j = j + 1 + 1) from by omega]
  · subst hrel
    simp [show ¬(i + n = i + 1) from by omega,
      show ¬(i + n = i) from by omega, show ¬(i = i + n + 1) from by omega,
      show ¬(i = i + n + n) from by omega]
  · subst hrel
    simp [show ¬(j + n = j + n + n) from by omega,
      show ¬(j + n = j + n + 1) from by omega,
      show ¬(j + n = j + 1) from by omega, show ¬(j + n = j) from by omega,
      show ¬(j = j + n + n) from by omega,
      show ¬(j = j + n + 1) from by omega, show n ≠ 0 from by omega]

/-- C3 witness at `n = 2`, `γ = 1`, `i = 0`, `j = 1`. -/
theorem heat_offdiagonal_coefficient_witness :
    (1 = 0 + 1 → Amat 2 1 0 1 = if 0 % 2 = 2 - 1 then 0 else 1) ∧
    ((0 : ℕ) = 1 + 1 → Amat 2 1 0 1 = if 0 % 2 = 0 then 0 else 1) ∧
    (1 = 0 + 2 → Amat 2 1 0 1 = 1) ∧
    ((0 : ℕ) = 1 + 2 → Amat 2 1 0 1 = 1) :=
  heat_offdiagonal_coefficient 2 1 0 1 (by norm_num) (by norm_num)
    (by norm_num)

/-- C4: after every step `i ≥ 1`, every flat index in the designated
boundary set (the first `n` indices, grid row 0) equals the configured
boundary constant exactly. -/
theorem heat_boundary_invariant (n : ℕ) (g b : ℚ) (x0 : ℕ → ℚ) (i : ℕ)
    (hi : 1 ≤ i) : ∀ j, j < n → Zseq n g b x0 i j = b :=
  fun _ hj => Zseq_boundary g b x0 hi hj

/-- C4 witness at `n = 2`, step 1: both boundary cells hold the
constant. -/
theorem heat_boundary_invariant_witness :
    Zseq 2 1 5 (fun _ => 0) 1 0 = 5 ∧ Zseq 2 1 5 (fun _ => 0) 1 1 = 5 :=
  ⟨heat_boundary_invariant 2 1 5 (fun _ => 0) 1 (by norm_num) 0 (by norm_num),
   heat_boundary_invariant 2 1 5 (fun _ => 0) 1 (by norm_num) 1 (by norm_num)⟩

/-- C6 counterexample: at `n = 1` (with `h = 1 ≠ 0`) construction
fails, but with a `ValueError` from `np.tile(row, n-2)`, not with the
`InvalidParameters` error the claim names. -/
theorem heat_build_invalidparams_cex :
    buildOperator 1 2 (1 / 8) 1 ≠
      Except.error BuildErr.invalidParameters ∧
    buildOperator 1 2 (1 / 8) 1 = Except.error BuildErr.valueError := by
  have h := buildOperator_small 1 2 (1 / 8) 1 (by norm_num) (by norm_num)
  refine ⟨?_, h⟩
  rw [h]
  simp

/-- C6 (amended): construction fails — with a generic Python error,
`ZeroDivisionError` for `h = 0` or `ValueError` for `n < 2`, never a
dedicated `InvalidParameters` — and, failing, produces no operator. -/
theorem heat_build_fails_for_bad_params (n : ℕ) (a th h : ℚ)
    (hbad : h = 0 ∨ n < 2) :
    ∃ e, buildOperator n a th h = Except.error e ∧
      e ≠ BuildErr.invalidParameters := by
  rcases hbad with hh | hn
  · subst hh
    exact ⟨BuildErr.zeroDivision, buildOperator_h_zero n a th, by simp⟩
  · by_cases hh : h = 0
    · subst hh
      exact ⟨BuildErr.zeroDivision, buildOperator_h_zero n a th, by simp⟩
    · exact ⟨BuildErr.valueError, buildOperator_small n a th h hn hh, by simp⟩

/-- C6 witness: the amended claim at `n = 1`. -/
theorem heat_build_fails_witness :
    ∃ e, buildOperator 1 2 (1 / 8) 1 = Except.error e ∧
      e ≠ BuildErr.invalidParameters :=
  heat_build_fails_for_bad_params 1 2 (1 / 8) 1 (Or.inr (by norm_num))

/-- C7: the simulation output is an ordered sequence of exactly `t`
frames, each reshaped as an `n × n` array (row-major). -/
theorem heat_series_shape (n : ℕ) (g b : ℚ) (init : ℕ → ℕ → ℚ)
    (t : ℕ) :
    (timeSeries n g b init t).length = t ∧
    (reshapedSeries n g b init t).length = t ∧
    (∀ k, k < t → ∀ r c, r < n → c < n →
      (reshapedSeries n g b init t).getD k (fun _ _ => 0) r c =
        Zseq n g b (flattenInit n init) k (n * r + c)) := by
  refine ⟨by simp [timeSeries], by simp [reshapedSeries, timeSeries],
    fun k hk r c _ _ => ?_⟩
  have h1 : k < (reshapedSeries n g b init t).length := by
    simp [reshapedSeries, timeSeries]
    exact hk
  rw [List.getD_eq_getElem _ _ h1]
  simp [reshapedSeries, timeSeries]

/-- C7 witness at `n = 2`, `t = 4`. -/
theorem heat_series_shape_witness :
    (timeSeries 2 1 5 (fun _ _ => 3) 4).length = 4 ∧
    (reshapedSeries 2 1 5 (fun _ _ => 3) 4).getD 1 (fun _ _ => 0) 0 1 =
      Zseq 2 1 5 (flattenInit 2 fun _ _ => 3) 1 (2 * 0 + 1) :=
  ⟨(heat_series_shape 2 1 5 (fun _ _ => 3) 4).1,
   (heat_series_shape 2 1 5 (fun _ _ => 3) 4).2.2 1 (by norm_num) 0 1
     (by norm_num) (by norm_num)⟩

/-- C8: the normalization range is computed once from the minimum and
maximum of the initial frame only, and the `animate` callback uses
that same fixed range for every frame. -/
theorem heat_norm_from_initial_frame (n : ℕ) (g b : ℚ)
    (init : ℕ → ℕ → ℚ) (frame : ℕ) :
    animUsedRange n init frame =
      (npMin (gridVals n (Zseq n g b (flattenInit n init) 0)),
       npMax (gridVals n (Zseq n g b (flattenInit n init) 0))) ∧
    animUsedRange n init frame = animUsedRange n init 0 :=
  ⟨rfl, rfl⟩

/-- C9: applying the built operator to a uniform state returns the
same uniform state, and every row of the operator sums to exactly 1. -/
theorem heat_uniform_fixed_point (n : ℕ) (g c : ℚ) (hn : 2 ≤ n) :
    (∀ i, i < n * n → applyA n g (fun _ => c) i = c) ∧
    (∀ i, i < n * n → ∑ j in Finset.range (n * n), Amat n g i j = 1) :=
  ⟨fun _ hi => applyA_const g c hn hi, fun _ hi => Amat_row_sum g hn hi⟩

/-- C9 witness at `n = 2`, `γ = 1`, `c = 7`, `i = 0`. -/
theorem heat_uniform_fixed_point_witness :
    applyA 2 1 (fun _ => 7) 0 = 7 ∧
    ∑ j in Finset.range (2 * 2), Amat 2 1 0 j = 1 :=
  ⟨(heat_uniform_fixed_point 2 1 7 (by norm_num)).1 0 (by norm_num),
   (heat_uniform_fixed_point 2 1 7 (by norm_num)).2 0 (by norm_num)⟩

/-- C10: the built operator matrix is symmetric on `[0, n²)`. -/
theorem heat_operator_symmetric (n : ℕ) (g : ℚ) (i j : ℕ) (hn : 2 ≤ n)
    (hi : i < n * n) (hj : j < n * n) : Amat n g i j = Amat n g j i :=
  Amat_symm g hn hi hj

/-- C10 witness at `n = 2`, `γ = 1`, `i = 0`, `j = 1`. -/
theorem heat_operator_symmetric_witness : Amat 2 1 0 1 = Amat 2 1 1 0 :=
  heat_operator_symmetric 2 1 0 1 (by norm_num) (by norm_num) (by norm_num)

/-! ### Instability machinery: inner products and the checkerboard mode -/

lemma grid_top_iff {n r c : ℕ} (hn : 0 < n) (hc : c < n) :
    n * r + c < n ↔ r = 0 := by
  constructor
  · intro h
    by_contra hcon
    have h1 : n * 1 ≤ n * r := Nat.mul_le_mul_left n (by omega)
    omega
  · intro h
    subst h
    simpa using hc

lemma two_n_le_iff {n r c : ℕ} (hn : 0 < n) (hc : c < n) :
    2 * n ≤ n * r + c ↔ 2 ≤ r := by
  constructor
  · intro h
    by_contra hcon
    have h1 : n * r ≤ n * 1 := Nat.mul_le_mul_left n (by omega)
    omega
  · intro h
    have h1 : n * 2 ≤ n * r := Nat.mul_le_mul_left n h
    omega

lemma n_le_grid {n r c : ℕ} (hr1 : 1 ≤ r) : n ≤ n * r + c := by
  have h1 : n * 1 ≤ n * r := Nat.mul_le_mul_left n hr1
  omega

/-- Row-major double-sum reindexing of a flat sum over the grid. -/
lemma sum_grid (m n : ℕ) (f : ℕ → ℚ) :
    ∑ i in Finset.range (m * n), f i =
      ∑ r in Finset.range m, ∑ c in Finset.range n, f (n * r + c) := by
  induction m with
  | zero => simp
  | succ p ih =>
    rw [show (p + 1) * n = p * n + n from Nat.succ_mul p n,
      Finset.sum_range_add, ih, Finset.sum_range_succ]
    rw [Nat.mul_comm p n]

lemma sum_indicator_ne (n a : ℕ) (ha : a < n) :
    ∑ c in Finset.range n, (if c = a then (0 : ℚ) else 1) = (n : ℚ) - 1 := by
  have e : ∀ c, (if c = a then (0 : ℚ) else 1) =
      1 - (if c = a then 1 else 0) := by
    intro c; split_ifs <;> ring
  rw [Finset.sum_congr rfl fun c _ => e c, Finset.sum_sub_distrib,
    Finset.sum_const, Finset.card_range,
    Finset.sum_ite_eq' (Finset.range n) a fun _ => (1 : ℚ)]
  simp [Finset.mem_range.mpr ha]

lemma sum_indicator_ge_two (n : ℕ) (hn : 2 ≤ n) :
    ∑ r in Finset.range n, (if 2 ≤ r then (1 : ℚ) else 0) = (n : ℚ) - 2 := by
  have e : ∀ r, (if 2 ≤ r then (1 : ℚ) else 0) =
      1 - (if r = 0 then 1 else 0) - (if r = 1 then 1 else 0) := by
    intro r
    split_ifs <;> (first | ring1 | (exfalso; omega))
  rw [Finset.sum_congr rfl fun r _ => e r, Finset.sum_sub_distrib,
    Finset.sum_sub_distrib, Finset.sum_const, Finset.card_range,
    Finset.sum_ite_eq' (Finset.range n) 0 fun _ => (1 : ℚ),
    Finset.sum_ite_eq' (Finset.range n) 1 fun _ => (1 : ℚ)]
  simp [Finset.mem_range.mpr (show 0 < n by omega),
    Finset.mem_range.mpr (show 1 < n by omega)]
  ring

lemma innerQ_nonneg (n : ℕ) (x : ℕ → ℚ) : 0 ≤ innerQ n x x :=
  Finset.sum_nonneg fun i _ => mul_self_nonneg (x i)

lemma innerQ_cauchy (n : ℕ) (x y : ℕ → ℚ) :
    (innerQ n x y) ^ 2 ≤ innerQ n x x * innerQ n y y := by
  have h := Finset.sum_mul_sq_le_sq_mul_sq (Finset.range (n * n)) x y
  unfold innerQ
  calc (∑ i in Finset.range (n * n), x i * y i) ^ 2 ≤
      (∑ i in Finset.range (n * n), x i ^ 2) *
        ∑ i in Finset.range (n * n), y i ^ 2 := h
    _ = (∑ i in Finset.range (n * n), x i * x i) *
        ∑ i in Finset.range (n * n), y i * y i := by
        rw [Finset.sum_congr rfl fun i _ => sq (x i),
          Finset.sum_congr rfl fun i _ => sq (y i)]

/-- States vanishing on the overwritten top row stay so under the
`b = 0` step, and the bilinear form is then symmetric in the step. -/
lemma innerQ_step_symm {n : ℕ} (g : ℚ) (hn : 2 ≤ n) (x y : ℕ → ℚ)
    (hx : ∀ i, i < n → x i = 0) (hy : ∀ i, i < n → y i = 0) :
    innerQ n x (stepFrame n g 0 y) = innerQ n (stepFrame n g 0 x) y := by
  unfold innerQ stepFrame
  have e1 : ∑ i in Finset.range (n * n),
      x i * (if i < n then (0 : ℚ) else applyA n g y i) =
      ∑ i in Finset.range (n * n), x i * applyA n g y i := by
    refine Finset.sum_congr rfl fun i _ => ?_
    by_cases h : i < n
    · rw [hx i h]; ring
    · rw [if_neg h]
  have e2 : ∑ i in Finset.range (n * n),
      (if i < n then (0 : ℚ) else applyA n g x i) * y i =
      ∑ i in Finset.range (n * n), applyA n g x i * y i := by
    refine Finset.sum_congr rfl fun i _ => ?_
    by_cases h : i < n
    · rw [hy i h]; ring
    · rw [if_neg h]
  rw [e1, e2]
  unfold applyA
  rw [Finset.sum_congr rfl fun i _ =>
    Finset.mul_sum (Finset.range (n * n)) (fun j => Amat n g i j * y j) (x i)]
  rw [Finset.sum_comm]
  refine Finset.sum_congr rfl fun j hj => ?_
  rw [Finset.sum_mul]
  refine Finset.sum_congr rfl fun i hi => ?_
  rw [Amat_symm g hn (Finset.mem_range.mp hi) (Finset.mem_range.mp hj)]
  ring

lemma Zseq_vanish_top {n : ℕ} (g : ℚ) (x0 : ℕ → ℚ)
    (h0 : ∀ i, i < n → x0 i = 0) :
    ∀ k, ∀ i, i < n → Zseq n g 0 x0 k i = 0 := by
  intro k
  cases k with
  | zero => exact h0
  | succ m =>
    intro i hi
    show stepFrame n g 0 (Zseq n g 0 x0 m) i = 0
    unfold stepFrame
    rw [if_pos hi]

lemma cbInit_vanish_top (n : ℕ) : ∀ i, i < n → cbInit n i = 0 := by
  intro i hi
  unfold cbInit
  rw [if_pos hi]

lemma cb_mul_self {n i : ℕ} (h : n ≤ i) : cbInit n i * cbInit n i = 1 := by
  unfold cbInit
  rw [if_neg (by omega)]
  split_ifs <;> norm_num

lemma cb_flip {n i j : ℕ} (hi : n ≤ i) (hj : n ≤ j)
    (hpar : (i / n + i % n) % 2 ≠ (j / n + j % n) % 2) :
    cbInit n i * cbInit n j = -1 := by
  unfold cbInit
  rw [if_neg (show ¬(i < n) by omega), if_neg (show ¬(j < n) by omega)]
  rcases Nat.mod_two_eq_zero_or_one (i / n + i % n) with h1 | h1 <;>
    rcases Nat.mod_two_eq_zero_or_one (j / n + j % n) with h2 | h2 <;>
    rw [h1, h2] at hpar <;>
    simp only [h1, h2] <;>
    (first
      | (exact absurd rfl hpar)
      | norm_num)

lemma parity_succ {n i : ℕ} (hn : 2 ≤ n) (hmod : i % n ≠ n - 1) :
    ((i + 1) / n + (i + 1) % n) % 2 ≠ (i / n + i % n) % 2 := by
  have h0 : 0 < n := by omega
  have hc : i % n < n := Nat.mod_lt _ h0
  have hdec := (Nat.div_add_mod i n).symm
  have e : i + 1 = n * (i / n) + (i % n + 1) := by omega
  rw [e, grid_div _ h0 (by omega), grid_mod _ (by omega)]
  omega

lemma parity_plusn {n i : ℕ} (hn : 2 ≤ n) :
    ((i + n) / n + (i + n) % n) % 2 ≠ (i / n + i % n) % 2 := by
  have h0 : 0 < n := by omega
  have hc : i % n < n := Nat.mod_lt _ h0
  have hdec := (Nat.div_add_mod i n).symm
  have e : i + n = n * (i / n + 1) + i % n := by
    have h2 : n * (i / n + 1) = n * (i / n) + n := Nat.mul_succ ..
    omega
  rw [e, grid_div _ h0 hc, grid_mod _ hc]
  omega

/-- Value of `v i * (A v) i` for the checkerboard mode at a cell of grid
row `r ≥ 1`, column `c`: every present neighbour inside rows `≥ 1`
contributes `-1`, the row-0 neighbour of row-1 cells contributes 0. -/
lemma cb_cell_value {n r c : ℕ} (g : ℚ) (hn : 2 ≤ n) (hr : r < n)
    (hc : c < n) (hr1 : 1 ≤ r) :
    cbInit n (n * r + c) * applyA n g (cbInit n) (n * r + c) =
      1 - g * ((1 + 2 * (if r = n - 1 then 0 else 1) +
        (if 2 ≤ r then 1 else 0)) +
        (if c = 0 then 0 else 2) + (if c = n - 1 then 0 else 2)) := by
  have h0 : 0 < n := by omega
  set i := n * r + c with hidef
  have hin : i < n * n := grid_lt hr hc
  have hdiv : i / n = r := grid_div r h0 hc
  have hmod : i % n = c := grid_mod r hc
  have hmul : n * 1 ≤ n * r := Nat.mul_le_mul_left n hr1
  have hge : n ≤ i := by omega
  rw [applyA_eq g _ hn hin, numNeighbors_eq_rowcol hn hin, hmod, hdiv]
  have hdok : (i + n < n * n) ↔ ¬(r = n - 1) := by
    rw [bottom_row_iff h0 hin, hdiv]
    omega
  have htop : ¬(i < n) := by omega
  rw [if_congr hdok rfl rfl, if_neg htop]
  have hsq : cbInit n i * cbInit n i = 1 := cb_mul_self hge
  have hRv : cbInit n i * (if c = n - 1 then (0 : ℚ) else cbInit n (i + 1)) =
      (if c = n - 1 then 0 else -1) := by
    by_cases h : c = n - 1
    · simp [h]
    · rw [if_neg h, if_neg h]
      have hp := parity_succ hn (i := i) (by rw [hmod]; exact h)
      exact cb_flip hge (by omega) (Ne.symm hp)
  have hLv : cbInit n i * (if c = 0 then (0 : ℚ) else cbInit n (i - 1)) =
      (if c = 0 then 0 else -1) := by
    by_cases h : c = 0
    · simp [h]
    · rw [if_neg h, if_neg h]
      have hi1 : n + 1 ≤ i := by omega
      have hpm : ¬((i - 1) % n = n - 1) := fun hcon =>
        h (by rw [← hmod]; exact (pred_mod_iff hn (by omega)).mp hcon)
      have hp := parity_succ hn (i := i - 1) hpm
      rw [show i - 1 + 1 = i by omega] at hp
      exact cb_flip hge (by omega) hp
  have hDv : cbInit n i *
      (if ¬(r = n - 1) then cbInit n (i + n) else (0 : ℚ)) =
      (if r = n - 1 then 0 else -1) := by
    by_cases h : r = n - 1
    · simp [h]
    · rw [if_pos h, if_neg h]
      have hp := parity_plusn (i := i) hn
      exact cb_flip hge (by omega) (Ne.symm hp)
  have hUv : cbInit n i * cbInit n (i - n) = (if 2 ≤ r then -1 else 0) := by
    by_cases h : 2 ≤ r
    · rw [if_pos h]
      have hmul2 : n * 2 ≤ n * r := Nat.mul_le_mul_left n h
      have hin' : n ≤ i - n := by omega
      have hp := parity_plusn (i := i - n) hn
      rw [show i - n + n = i by omega] at hp
      exact cb_flip hge hin' hp
    · rw [if_neg h]
      have hlow : i - n < n := by
        have hr1' : r = 1 := by omega
        rw [hidef, hr1']
        omega
      rw [cbInit_vanish_top n (i - n) hlow]
      ring
  calc cbInit n i *
      ((1 - g * (((if c = 0 then 0 else 1) + (if c = n - 1 then 0 else 1) +
          (if r = 0 then 0 else 1) + (if r = n - 1 then 0 else 1) : ℕ) : ℚ)) *
          cbInit n i +
        g * ((if c = n - 1 then 0 else cbInit n (i + 1)) +
          (if c = 0 then 0 else cbInit n (i - 1)) +
          (if ¬(r = n - 1) then cbInit n (i + n) else 0) +
          cbInit n (i - n))) =
      (1 - g * (((if c = 0 then 0 else 1) + (if c = n - 1 then 0 else 1) +
          (if r = 0 then 0 else 1) + (if r = n - 1 then 0 else 1) : ℕ) : ℚ)) *
          (cbInit n i * cbInit n i) +
        g * (cbInit n i * (if c = n - 1 then 0 else cbInit n (i + 1)) +
          cbInit n i * (if c = 0 then 0 else cbInit n (i - 1)) +
          cbInit n i * (if ¬(r = n - 1) then cbInit n (i + n) else 0) +
          cbInit n i * cbInit n (i - n)) := by ring
    _ = (1 - g * (((if c = 0 then 0 else 1) + (if c = n - 1 then 0 else 1) +
          (if r = 0 then 0 else 1) + (if r = n - 1 then 0 else 1) : ℕ) : ℚ)) +
        g * ((if c = n - 1 then 0 else -1) + (if c = 0 then 0 else -1) +
          (if r = n - 1 then 0 else -1) + (if 2 ≤ r then -1 else 0)) := by
        rw [hsq, hRv, hLv, hDv, hUv]
        ring
    _ = 1 - g * ((1 + 2 * (if r = n - 1 then 0 else 1) +
          (if 2 ≤ r then 1 else 0)) +
          (if c = 0 then 0 else 2) + (if c = n - 1 then 0 else 2)) := by
        push_cast
        split_ifs <;> (first | ring1 | (exfalso; omega))

/-- Generic inner row sum: a row whose cells each pay a fixed cost `K`
plus 2 at every non-extreme column position on each side. -/
lemma sum_row (n : ℕ) (hn : 2 ≤ n) (K g : ℚ) :
    ∑ c in Finset.range n,
      (1 - g * (K + (if c = 0 then (0 : ℚ) else 2) +
        (if c = n - 1 then 0 else 2))) =
      (n : ℚ) - g * (K * n + 4 * ((n : ℚ) - 1)) := by
  have e : ∀ c, (1 - g * (K + (if c = 0 then (0 : ℚ) else 2) +
      (if c = n - 1 then 0 else 2))) =
      (1 - g * K) - (2 * g) * (if c = 0 then (0 : ℚ) else 1) -
        (2 * g) * (if c = n - 1 then (0 : ℚ) else 1) := by
    intro c; split_ifs <;> ring
  rw [Finset.sum_congr rfl fun c _ => e c, Finset.sum_sub_distrib,
    Finset.sum_sub_distrib, Finset.sum_const, Finset.card_range,
    ← Finset.mul_sum, ← Finset.mul_sum, sum_indicator_ne n 0 (by omega),
    sum_indicator_ne n (n - 1) (by omega)]
  push_cast
  ring

/-- The squared norm of the checkerboard mode: one unit per cell below
grid row 0. -/
lemma inner_v_self {n : ℕ} (hn : 2 ≤ n) :
    innerQ n (cbInit n) (cbInit n) = (n : ℚ) * ((n : ℚ) - 1) := by
  have h0 : 0 < n := by omega
  unfold innerQ
  have e : ∀ i, cbInit n i * cbInit n i = if i < n then (0 : ℚ) else 1 := by
    intro i
    by_cases h : i < n
    · rw [cbInit_vanish_top n i h, if_pos h]; ring
    · rw [if_neg h, cb_mul_self (by omega)]
  rw [Finset.sum_congr rfl fun i _ => e i, sum_grid n n]
  have e2 : ∀ r, r < n → ∀ c, c < n →
      (if n * r + c < n then (0 : ℚ) else 1) =
        (if r = 0 then (0 : ℚ) else 1) := by
    intro r _ c hc
    exact if_congr (grid_top_iff h0 hc) rfl rfl
  rw [Finset.sum_congr rfl fun r hr => Finset.sum_congr rfl fun c hc =>
    e2 r (Finset.mem_range.mp hr) c (Finset.mem_range.mp hc)]
  calc ∑ r in Finset.range n, ∑ _c in Finset.range n,
        (if r = 0 then (0 : ℚ) else 1) =
      ∑ r in Finset.range n, (n : ℚ) * (if r = 0 then (0 : ℚ) else 1) := by
        refine Finset.sum_congr rfl fun r _ => ?_
        rw [Finset.sum_const, Finset.card_range, nsmul_eq_mul]
    _ = (n : ℚ) * ∑ r in Finset.range n, (if r = 0 then (0 : ℚ) else 1) :=
        (Finset.mul_sum ..).symm
    _ = (n : ℚ) * ((n : ℚ) - 1) := by
        rw [sum_indicator_ne n 0 (by omega)]

/-- The Rayleigh value of the checkerboard mode after one step:
`⟨v, Z 1⟩ = n(n-1) - γ·(8n² - 15n + 4)`. -/
lemma inner_v_step {n : ℕ} (g : ℚ) (hn : 2 ≤ n) :
    innerQ n (cbInit n) (Zseq n g 0 (cbInit n) 1) =
      (n : ℚ) * ((n : ℚ) - 1) -
        g * (8 * (n : ℚ) ^ 2 - 15 * (n : ℚ) + 4) := by
  have h0 : 0 < n := by omega
  unfold innerQ
  have e0 : ∀ i, cbInit n i * Zseq n g 0 (cbInit n) 1 i =
      (if i < n then (0 : ℚ)
        else cbInit n i * applyA n g (cbInit n) i) := by
    intro i
    show cbInit n i * stepFrame n g 0 (cbInit n) i = _
    unfold stepFrame
    by_cases h : i < n
    · rw [if_pos h, if_pos h, cbInit_vanish_top n i h]; ring
    · rw [if_neg h, if_neg h]
  rw [Finset.sum_congr rfl fun i _ => e0 i, sum_grid n n]
  have e1 : ∀ r ∈ Finset.range n, ∀ c ∈ Finset.range n,
      (if n * r + c < n then (0 : ℚ)
        else cbInit n (n * r + c) * applyA n g (cbInit n) (n * r + c)) =
      (if r = 0 then (0 : ℚ) else
        (1 - g * ((1 + 2 * (if r = n - 1 then 0 else 1) +
          (if 2 ≤ r then 1 else 0)) +
          (if c = 0 then 0 else 2) + (if c = n - 1 then 0 else 2)))) := by
    intro r hr c hc
    rw [if_congr (grid_top_iff h0 (Finset.mem_range.mp hc)) rfl rfl]
    by_cases h : r = 0
    · rw [if_pos h, if_pos h]
    · rw [if_neg h, if_neg h, cb_cell_value g hn (Finset.mem_range.mp hr)
        (Finset.mem_range.mp hc) (by omega)]
  rw [Finset.sum_congr rfl fun r hr =>
    Finset.sum_congr rfl fun c hc => e1 r hr c hc]
  have e2 : ∀ r, r < n →
      ∑ c in Finset.range n, (if r = 0 then (0 : ℚ) else
        (1 - g * ((1 + 2 * (if r = n - 1 then 0 else 1) +
          (if 2 ≤ r then 1 else 0)) +
          (if c = 0 then 0 else 2) + (if c = n - 1 then 0 else 2)))) =
      (if r = 0 then (0 : ℚ) else
        ((n : ℚ) - g * ((1 + 2 * (if r = n - 1 then 0 else 1) +
          (if 2 ≤ r then 1 else 0)) * n + 4 * ((n : ℚ) - 1)))) := by
    intro r _
    by_cases h : r = 0
    · simp [h]
    · rw [Finset.sum_congr rfl fun c _ => if_neg h, sum_row n hn _ g,
        if_neg h]
  rw [Finset.sum_congr rfl fun r hr => e2 r (Finset.mem_range.mp hr)]
  have e3 : ∀ r, (if r = 0 then (0 : ℚ) else
      ((n : ℚ) - g * ((1 + 2 * (if r = n - 1 then 0 else 1) +
        (if 2 ≤ r then 1 else 0)) * n + 4 * ((n : ℚ) - 1)))) =
      ((n : ℚ) - g * ((1 + 2 * (if r = n - 1 then 0 else 1) +
        (if 2 ≤ r then 1 else 0)) * n + 4 * ((n : ℚ) - 1))) -
      (if r = 0 then
        ((n : ℚ) - g * (3 * (n : ℚ) + 4 * ((n : ℚ) - 1))) else 0) := by
    intro r
    by_cases h : r = 0
    · subst h
      rw [if_pos rfl, if_pos rfl]
      rw [if_neg (show ¬((0 : ℕ) = n - 1) by omega),
        if_neg (show ¬(2 ≤ (0 : ℕ)) by omega)]
      ring
    · rw [if_neg h, if_neg h]; ring
  rw [Finset.sum_congr rfl fun r _ => e3 r, Finset.sum_sub_distrib,
    Finset.sum_ite_eq' (Finset.range n) 0
      fun _ => (n : ℚ) - g * (3 * (n : ℚ) + 4 * ((n : ℚ) - 1))]
  have e4 : ∀ r, ((n : ℚ) - g * ((1 + 2 * (if r = n - 1 then (0 : ℚ) else 1) +
      (if 2 ≤ r then (1 : ℚ) else 0)) * n + 4 * ((n : ℚ) - 1))) =
      ((n : ℚ) - g * ((n : ℚ) + 4 * ((n : ℚ) - 1))) -
        (g * (2 * (n : ℚ))) * (if r = n - 1 then (0 : ℚ) else 1) -
        (g * (n : ℚ)) * (if 2 ≤ r then (1 : ℚ) else 0) := by
    intro r; split_ifs <;> ring
  rw [Finset.sum_congr rfl fun r _ => e4 r, Finset.sum_sub_distrib,
    Finset.sum_sub_distrib, Finset.sum_const, Finset.card_range,
    ← Finset.mul_sum, ← Finset.mul_sum,
    sum_indicator_ne n (n - 1) (by omega), sum_indicator_ge_two n hn,
    nsmul_eq_mul]
  rw [if_pos (Finset.mem_range.mpr h0)]
  push_cast
  ring

/-- Cauchy–Schwarz power growth: once one step multiplies the squared
norm by `q`, every later step does too. -/
lemma growth_chain {n : ℕ} (g : ℚ) (hn : 2 ≤ n) (q : ℚ) (hq1 : 1 < q)
    (ht0 : 0 < innerQ n (cbInit n) (cbInit n))
    (hbase : q * innerQ n (cbInit n) (cbInit n) ≤
      innerQ n (Zseq n g 0 (cbInit n) 1) (Zseq n g 0 (cbInit n) 1)) :
    ∀ k, 0 < innerQ n (Zseq n g 0 (cbInit n) k)
        (Zseq n g 0 (cbInit n) k) ∧
      q * innerQ n (Zseq n g 0 (cbInit n) k) (Zseq n g 0 (cbInit n) k) ≤
        innerQ n (Zseq n g 0 (cbInit n) (k + 1))
          (Zseq n g 0 (cbInit n) (k + 1)) := by
  have hvan : ∀ k, ∀ i, i < n → Zseq n g 0 (cbInit n) k i = 0 :=
    Zseq_vanish_top g (cbInit n) (cbInit_vanish_top n)
  intro k
  induction k with
  | zero => exact ⟨ht0, hbase⟩
  | succ m ih =>
    obtain ⟨hpos, hstep⟩ := ih
    have hq0 : (0 : ℚ) < q := by linarith
    have hpos1 : 0 < innerQ n (Zseq n g 0 (cbInit n) (m + 1))
        (Zseq n g 0 (cbInit n) (m + 1)) :=
      lt_of_lt_of_le (mul_pos hq0 hpos) hstep
    refine ⟨hpos1, ?_⟩
    have hmid : innerQ n (Zseq n g 0 (cbInit n) m)
        (Zseq n g 0 (cbInit n) (m + 2)) =
        innerQ n (Zseq n g 0 (cbInit n) (m + 1))
          (Zseq n g 0 (cbInit n) (m + 1)) :=
      innerQ_step_symm g hn (Zseq n g 0 (cbInit n) m)
        (Zseq n g 0 (cbInit n) (m + 1)) (hvan m) (hvan (m + 1))
    have hcs := innerQ_cauchy n (Zseq n g 0 (cbInit n) m)
      (Zseq n g 0 (cbInit n) (m + 2))
    rw [hmid] at hcs
    nlinarith [hcs, mul_le_mul_of_nonneg_right hstep hpos1.le, hpos, hpos1]

/-- C5: stability of the explicit scheme.  If `Δt ≤ h²/(4α)` then, with
`γ = αΔt/h²`, every frame of every run stays bounded in max norm by
`max M0 |b|`.  If `Δt > h²/(4α)` there is an input — a grid size, an
initial condition (a checkerboard mode vanishing on the overwritten
boundary row) and a boundary constant — whose frames exceed every
threshold in finitely many steps. -/
theorem heat_stability :
    (∀ a th h : ℚ, 0 < a → 0 < th → h ≠ 0 → th ≤ h ^ 2 / (4 * a) →
      ∀ n : ℕ, 2 ≤ n → ∀ b M0 : ℚ, ∀ init : ℕ → ℚ,
      (∀ j, j < n * n → |init j| ≤ M0) →
      ∀ k j, j < n * n →
        |Zseq n (a * th / h ^ 2) b init k j| ≤ max M0 |b|) ∧
    (∀ a th h : ℚ, 0 < a → h ≠ 0 → h ^ 2 / (4 * a) < th →
      ∃ n : ℕ, ∃ init : ℕ → ℚ, ∃ b : ℚ, 2 ≤ n ∧
      ∀ T : ℚ, ∃ k j, j < n * n ∧
        T < |Zseq n (a * th / h ^ 2) b init k j|) := by
  constructor
  · intro a th h ha hth hh hcond n hn b M0 init hinit k j hj
    have hh2 : (0 : ℚ) < h ^ 2 := by positivity
    have hg0 : 0 ≤ a * th / h ^ 2 := by positivity
    have hg4 : a * th / h ^ 2 ≤ 1 / 4 := by
      rw [div_le_div_iff hh2 (by norm_num)]
      have h1 : th * (4 * a) ≤ h ^ 2 :=
        (le_div_iff (by positivity : (0 : ℚ) < 4 * a)).mp hcond
      nlinarith
    exact Zseq_bound _ b init (max M0 |b|) hn hg0 hg4
      (fun j hj => le_trans (hinit j hj) (le_max_left ..))
      (le_max_right ..) k j hj
  · intro a th h ha hh hcond
    have hh2 : (0 : ℚ) < h ^ 2 := by positivity
    set g := a * th / h ^ 2 with hgdef
    have hgq : 1 / 4 < g := by
      rw [hgdef, lt_div_iff hh2]
      have h1 := (div_lt_iff (by positivity : (0 : ℚ) < 4 * a)).mp hcond
      nlinarith
    have h8 : (0 : ℚ) < 8 * g - 2 := by linarith
    obtain ⟨n, hn2, hkey⟩ :
        ∃ n : ℕ, 2 ≤ n ∧ 15 * g ≤ (n : ℚ) * (8 * g - 2) := by
      refine ⟨max 2 ⌈15 * g / (8 * g - 2)⌉₊, le_max_left .., ?_⟩
      have hle : 15 * g / (8 * g - 2) ≤
          (⌈15 * g / (8 * g - 2)⌉₊ : ℚ) := Nat.le_ceil _
      have hle2 : ((⌈15 * g / (8 * g - 2)⌉₊ : ℕ) : ℚ) ≤
          ((max 2 ⌈15 * g / (8 * g - 2)⌉₊ : ℕ) : ℚ) := by
        exact_mod_cast le_max_right 2 ⌈15 * g / (8 * g - 2)⌉₊
      calc 15 * g = 15 * g / (8 * g - 2) * (8 * g - 2) := by field_simp
        _ ≤ ((max 2 ⌈15 * g / (8 * g - 2)⌉₊ : ℕ) : ℚ) * (8 * g - 2) :=
          mul_le_mul_of_nonneg_right (hle.trans hle2) h8.le
    refine ⟨n, cbInit n, 0, hn2, ?_⟩
    have hnQ : (2 : ℚ) ≤ (n : ℚ) := by exact_mod_cast hn2
    have hS0 : (0 : ℚ) < (n : ℚ) * ((n : ℚ) - 1) := by nlinarith
    have hgW : 2 * ((n : ℚ) * ((n : ℚ) - 1)) <
        g * (8 * (n : ℚ) ^ 2 - 15 * (n : ℚ) + 4) := by
      have hnn : (0 : ℚ) ≤ (n : ℚ) := by positivity
      nlinarith [mul_le_mul_of_nonneg_left hkey hnn]
    have ht0 : innerQ n (cbInit n) (cbInit n) = (n : ℚ) * ((n : ℚ) - 1) :=
      inner_v_self hn2
    have hr1 : innerQ n (cbInit n) (Zseq n g 0 (cbInit n) 1) =
        (n : ℚ) * ((n : ℚ) - 1) -
          g * (8 * (n : ℚ) ^ 2 - 15 * (n : ℚ) + 4) := inner_v_step g hn2
    set S : ℚ := (n : ℚ) * ((n : ℚ) - 1) with hSdef
    set W : ℚ := 8 * (n : ℚ) ^ 2 - 15 * (n : ℚ) + 4 with hWdef
    set q : ℚ := (S - g * W) ^ 2 / S ^ 2 with hqdef
    have hr1neg : S - g * W < -S := by linarith
    have hq1 : 1 < q := by
      rw [hqdef, lt_div_iff (by positivity)]
      nlinarith
    have hbase : q * innerQ n (cbInit n) (cbInit n) ≤
        innerQ n (Zseq n g 0 (cbInit n) 1) (Zseq n g 0 (cbInit n) 1) := by
      have hcs := innerQ_cauchy n (cbInit n) (Zseq n g 0 (cbInit n) 1)
      rw [hr1, ht0] at hcs
      rw [ht0, hqdef, div_mul_eq_mul_div, div_le_iff (by positivity)]
      nlinarith [mul_le_mul_of_nonneg_right hcs hS0.le]
    have hchain := growth_chain g hn2 q hq1 (by rw [ht0]; exact hS0) hbase
    have hpow : ∀ k, q ^ k * S ≤
        innerQ n (Zseq n g 0 (cbInit n) k) (Zseq n g 0 (cbInit n) k) := by
      intro k
      induction k with
      | zero =>
        simp only [pow_zero, one_mul]
        exact le_of_eq ht0.symm
      | succ m ih =>
        have h1 := (hchain m).2
        have h2 : q ^ (m + 1) * S = q * (q ^ m * S) := by ring
        rw [h2]
        calc q * (q ^ m * S) ≤
            q * innerQ n (Zseq n g 0 (cbInit n) m)
              (Zseq n g 0 (cbInit n) m) :=
            mul_le_mul_of_nonneg_left ih (by linarith : (0 : ℚ) ≤ q)
          _ ≤ _ := h1
    intro T
    by_cases hT : T < 0
    · refine ⟨0, n, ?_, ?_⟩
      · have h1 := Nat.mul_le_mul_left n hn2
        omega
      · have hval : Zseq n g 0 (cbInit n) 0 n = -1 := by
          show cbInit n n = -1
          unfold cbInit
          rw [if_neg (lt_irrefl n), Nat.div_self (by omega), Nat.mod_self]
          norm_num
        rw [hval]
        rw [abs_neg, abs_one]
        linarith
    · push_neg at hT
      obtain ⟨k, hk⟩ := pow_unbounded_of_one_lt
        ((T ^ 2 + 1) * ((n : ℚ) * (n : ℚ)) / S) hq1
      refine ⟨k, ?_⟩
      by_contra hcon
      push_neg at hcon
      have htk := hpow k
      have hbig : (T ^ 2 + 1) * ((n : ℚ) * (n : ℚ)) < q ^ k * S := by
        rw [div_lt_iff hS0] at hk
        linarith
      have hcell : ∀ j ∈ Finset.range (n * n),
          Zseq n g 0 (cbInit n) k j * Zseq n g 0 (cbInit n) k j ≤ T ^ 2 := by
        intro j hj
        have hb := hcon j (Finset.mem_range.mp hj)
        calc Zseq n g 0 (cbInit n) k j * Zseq n g 0 (cbInit n) k j =
            |Zseq n g 0 (cbInit n) k j| * |Zseq n g 0 (cbInit n) k j| :=
            (abs_mul_abs_self _).symm
          _ ≤ T * T := mul_le_mul hb hb (abs_nonneg _) hT
          _ = T ^ 2 := (sq T).symm
      have hsum : innerQ n (Zseq n g 0 (cbInit n) k)
          (Zseq n g 0 (cbInit n) k) ≤ ((n * n : ℕ) : ℚ) * T ^ 2 := by
        unfold innerQ
        calc ∑ j in Finset.range (n * n),
            Zseq n g 0 (cbInit n) k j * Zseq n g 0 (cbInit n) k j ≤
            ∑ _j in Finset.range (n * n), T ^ 2 :=
            Finset.sum_le_sum hcell
          _ = ((n * n : ℕ) : ℚ) * T ^ 2 := by
              rw [Finset.sum_const, Finset.card_range, nsmul_eq_mul]
      have hcast : ((n * n : ℕ) : ℚ) = (n : ℚ) * (n : ℚ) := by push_cast; ring
      rw [hcast] at hsum
      have hnn2 : (0 : ℚ) < (n : ℚ) * (n : ℚ) := by positivity
      linarith [htk, hsum, hbig, hnn2]

/-- C5 witness: part (a) at `α = 1`, `Δt = 1/8`, `h = 1`, `n = 2`,
`b = 0`, constant initial state; part (b) at `α = 1`, `Δt = 1`,
`h = 1`. -/
theorem heat_stability_witness :
    (∀ k j, j < 2 * 2 →
      |Zseq 2 ((1 : ℚ) * (1 / 8) / 1 ^ 2) 0 (fun _ => 1) k j| ≤
        max 1 |(0 : ℚ)|) ∧
    (∃ n : ℕ, ∃ init : ℕ → ℚ, ∃ b : ℚ, 2 ≤ n ∧
      ∀ T : ℚ, ∃ k j, j < n * n ∧
        T < |Zseq n ((1 : ℚ) * 1 / 1 ^ 2) b init k j|) :=
  ⟨heat_stability.1 1 (1 / 8) 1 (by norm_num) (by norm_num) (by norm_num)
      (by norm_num) 2 (by norm_num) 0 1 (fun _ => 1)
      (fun j _ => by norm_num),
   heat_stability.2 1 1 1 (by norm_num) (by norm_num) (by norm_num)⟩

end HeatEq
